import Mathlib

/-!
# Remko time-program card: the timeslot normaliser and the edit session

A shallow embedding of `src/remko_timeprogram_card.js`.

* Time strings stay strings: `timeToMinutes` splits at `:` and converts both
  parts with `Number`, exactly as the card does, and the test
  `stop === "00:00"` is string equality.
* A JavaScript number is an `Option Nat`; `none` is `NaN`.  Comparisons with
  `NaN` are false, as in JavaScript.
* `Array.prototype.sort` is a stable sort; it is embedded as a stable
  insertion sort driven by "the comparator is positive".
* Loops that push onto an output array are recursive functions that emit the
  pushed elements in the same order.
* The card object is a record of the fields the editing operations touch;
  JavaScript objects used as maps are association lists in insertion order.
-/

namespace RemkoCard

/-! ## Time arithmetic -/

/-- Value of one ASCII decimal digit, `none` for any other character. -/
def digitVal (c : Char) : Option Nat :=
  if c.isDigit then some (c.toNat - 48) else none

/-- Decimal value of a run of digits, most significant first; `acc` is the
value read so far.  `none` as soon as a non-digit is met. -/
def digitsValue : List Char → Nat → Option Nat
  | [], acc => some acc
  | c :: cs, acc =>
    match digitVal c with
    | some d => digitsValue cs (acc * 10 + d)
    | none => none

/-- `Number(s)` on the fragment the card's data lives in: a string made of
decimal digits only is its decimal value, and the empty string is 0.  Every
other string gives `none`: it is `NaN` in JavaScript, or one of the signed,
fractional, exponent, hexadecimal or blank-padded literals, which this
embedding does not track. -/
def jsNumber (s : List Char) : Option Nat :=
  digitsValue s 0

/-- `t.split(":")` on the characters of `t`; `cur` is the current piece,
reversed. -/
def splitColon : List Char → List Char → List (List Char)
  | [], cur => [cur.reverse]
  | c :: cs, cur =>
    if c = ':' then cur.reverse :: splitColon cs [] else splitColon cs (c :: cur)

/-- `timeToMinutes(t)`: `const [h, m] = t.split(":").map(Number); return h * 60 + m;`.
A missing second piece is `undefined`, whose sum is `NaN`. -/
def timeToMinutes (t : String) : Option Nat :=
  match splitColon t.toList [] with
  | h :: m :: _ =>
    match jsNumber h, jsNumber m with
    | some h, some m => some (h * 60 + m)
    | _, _ => none
  | _ => none

/-- JavaScript `a < b` on numbers. -/
def numLt : Option Nat → Option Nat → Bool
  | some a, some b => decide (a < b)
  | _, _ => false

/-- JavaScript `a <= b` on numbers. -/
def numLe : Option Nat → Option Nat → Bool
  | some a, some b => decide (a ≤ b)
  | _, _ => false

/-- JavaScript `a === b` on numbers. -/
def numEq : Option Nat → Option Nat → Bool
  | some a, some b => decide (a = b)
  | _, _ => false

/-- The expression `stop === "00:00" ? 1440 : this.timeToMinutes(stop)`, which
the merge pass and the final sort apply to a stop time. -/
def endMinutes (stop : String) : Option Nat :=
  if stop = "00:00" then some 1440 else timeToMinutes stop

/-! ## Timeslots -/

/-- One timeslot `{ start, stop, on }`; the field `on` is spelled `isOn`
because `on` is a reserved word. -/
structure Timeslot where
  start : String
  stop : String
  isOn : Bool
deriving DecidableEq, Repr

/-- Well-formed interval: both times parse and either
`timeToMinutes(start) < timeToMinutes(stop)` or `stop` is `"00:00"`. -/
def wellFormed (x : Timeslot) : Bool :=
  match timeToMinutes x.start, timeToMinutes x.stop with
  | some s, some e => decide (s < e) || decide (x.stop = "00:00")
  | _, _ => false

/-! ## Sorting -/

/-- `Array.prototype.sort(compareFn)`, a stable sort.  `gt a b` says that
`compareFn(a, b)` is positive; an element is moved behind another one only
then, so elements the comparator does not separate keep their order. -/
def jsSort {α : Type} (gt : α → α → Bool) (l : List α) : List α :=
  l.insertionSort (fun a b => gt a b = false)

/-- Positivity of the comparator
`(a, b) => this.timeToMinutes(a.start) - this.timeToMinutes(b.start)`. -/
def startGt (a b : Timeslot) : Bool :=
  numLt (timeToMinutes b.start) (timeToMinutes a.start)

/-- Positivity of the comparator of the final sort: when the starts are
equal, `aStop - bStop` with `"00:00"` counted as 1440, otherwise
`aStart - bStart`. -/
def finalGt (a b : Timeslot) : Bool :=
  if numEq (timeToMinutes a.start) (timeToMinutes b.start) then
    numLt (endMinutes b.stop) (endMinutes a.stop)
  else
    numLt (timeToMinutes b.start) (timeToMinutes a.start)

/-! ## The normaliser -/

/-- What the body of the loop of `applyCut` pushes for one `slot`. -/
def cutOne (cutSlot slot : Timeslot) : List Timeslot :=
  let cutStart := timeToMinutes cutSlot.start
  let cutStop := timeToMinutes cutSlot.stop
  if !slot.isOn then [slot]
  else
    let slotStart := timeToMinutes slot.start
    let slotStop := timeToMinutes slot.stop
    if numLe slotStop cutStart || numLe cutStop slotStart then [slot]
    else
      (if numLt slotStart cutStart then
        [{ start := slot.start, stop := cutSlot.start, isOn := true }] else []) ++
      (if numLt cutStop slotStop then
        [{ start := cutSlot.stop, stop := slot.stop, isOn := true }] else [])

/-- `applyCut(slots, cutSlot)`. -/
def applyCut : List Timeslot → Timeslot → List Timeslot
  | [], _ => []
  | slot :: slots, cutSlot => cutOne cutSlot slot ++ applyCut slots cutSlot

/-- The loop of `mergeOnlyOn`, with `current` the running accumulator; the
result lists what is pushed onto `merged` from here on, the final
`if (current) merged.push(current)` included. -/
def mergeLoop : List Timeslot → Option Timeslot → List Timeslot
  | [], none => []
  | [], some c => [c]
  | slot :: rest, current =>
    if !slot.isOn then
      match current with
      | some c => c :: slot :: mergeLoop rest none
      | none => slot :: mergeLoop rest none
    else
      match current with
      | none => mergeLoop rest (some slot)
      | some c =>
        let nextStart := timeToMinutes slot.start
        let adjustedCurrentStop := endMinutes c.stop
        if numLe nextStart adjustedCurrentStop then
          let nextStop := timeToMinutes slot.stop
          let currentStopMinutes := endMinutes c.stop
          if numLt currentStopMinutes nextStop then
            mergeLoop rest (some { c with stop := slot.stop })
          else
            mergeLoop rest (some c)
        else
          c :: mergeLoop rest (some slot)

/-- `mergeOnlyOn(slots)`. -/
def mergeOnlyOn (slots : List Timeslot) : List Timeslot :=
  mergeLoop slots none

/-- One round of the sweep of `cleanAndMergeTimeprogram`: an on slot is
pushed, an off slot first cuts the result so far and is then pushed. -/
def sweepStep (result : List Timeslot) (slot : Timeslot) : List Timeslot :=
  if slot.isOn then result ++ [slot] else applyCut result slot ++ [slot]

/-- The sweep `for (let slot of sorted) ...` starting from `result`. -/
def sweep (sorted : List Timeslot) (result : List Timeslot) : List Timeslot :=
  sorted.foldl sweepStep result

/-- `cleanAndMergeTimeprogram(timeslots)`. -/
def cleanAndMergeTimeprogram (timeslots : List Timeslot) : List Timeslot :=
  match timeslots with
  | [] => []
  | _ =>
    let sorted := jsSort startGt timeslots
    let result := sweep sorted []
    let result := mergeOnlyOn result
    jsSort finalGt result

/-! ## Edit session -/

/-- Property read `obj[key]` on a JavaScript object used as a map; `none` is
`undefined`. -/
def getKey {α : Type} : List (String × α) → String → Option α
  | [], _ => none
  | (k, v) :: rest, key => if k = key then some v else getKey rest key

/-- Property write `obj[key] = value`: an existing key keeps its place, a new
key goes to the end. -/
def setKey {α : Type} : List (String × α) → String → α → List (String × α)
  | [], key, value => [(key, value)]
  | (k, v) :: rest, key, value =>
    if k = key then (k, value) :: rest else (k, v) :: setKey rest key value

/-- The value stored under a weekday key: `{ timeslots: [...] }`. -/
structure DayProgram where
  timeslots : List Timeslot
deriving DecidableEq, Repr

/-- The fields of the card that the editing operations read and write, once
`render` has loaded the time program. -/
structure Card where
  _timeprogram : List (String × DayProgram)
  _original_timeprogram : List (String × DayProgram)
  _dirty : Bool
  _new_slots : List (String × List Timeslot)
deriving DecidableEq, Repr

/-- The test `s.start === slot.start && s.stop === slot.stop && s.on === slot.on`. -/
def sameSlot (s slot : Timeslot) : Bool :=
  decide (s.start = slot.start) && decide (s.stop = slot.stop) && decide (s.isOn = slot.isOn)

/-- `isTimeslotNew(day, slot)`. -/
def isTimeslotNew (card : Card) (day : String) (slot : Timeslot) : Bool :=
  match getKey card._new_slots day with
  | none => false
  | some slots => slots.any (fun s => sameSlot s slot)

/-- `trackNewSlots(day, slot)`. -/
def trackNewSlots (card : Card) (day : String) (slot : Timeslot) : Card :=
  let newSlots :=
    match getKey card._new_slots day with
    | none => setKey card._new_slots day []
    | some _ => card._new_slots
  let dayList := (getKey newSlots day).getD []
  let already := dayList.any (fun s => sameSlot s slot)
  if !already then
    { card with
      _new_slots := setKey newSlots day
        (dayList ++ [{ start := slot.start, stop := slot.stop, isOn := slot.isOn }]) }
  else
    { card with _new_slots := newSlots }

/-- `addTimeslot(day)`, with the answers of the three dialogs as arguments:
`none` is a cancelled dialog (`null`), and an empty time string is falsy as
well. -/
def addTimeslot (card : Card) (day : String) (start stop : Option String)
    (onAnswer : Option Bool) : Card :=
  match start with
  | none => card
  | some start =>
    if start = "" then card
    else
      match stop with
      | none => card
      | some stop =>
        if stop = "" then card
        else
          match onAnswer with
          | none => card
          | some isOn =>
            let timeprogram :=
              match getKey card._timeprogram day with
              | none => setKey card._timeprogram day { timeslots := [] }
              | some _ => card._timeprogram
            let card := { card with _timeprogram := timeprogram }
            let newSlot : Timeslot := { start := start, stop := stop, isOn := isOn }
            let card := trackNewSlots card day newSlot
            let pushed :=
              ((getKey card._timeprogram day).getD { timeslots := [] }).timeslots ++ [newSlot]
            { card with
              _timeprogram :=
                setKey card._timeprogram day { timeslots := cleanAndMergeTimeprogram pushed }
              _dirty := true }

/-- `deleteTimeslot(day, index)`: `splice(index, 1)` on the stored list. -/
def deleteTimeslot (card : Card) (day : String) (index : Nat) : Card :=
  match getKey card._timeprogram day with
  | some entry =>
    { card with
      _timeprogram :=
        setKey card._timeprogram day { timeslots := entry.timeslots.eraseIdx index }
      _dirty := true }
  | none => card

/-- The list `sorted` that `renderDays` shows for the weekday `key`; the
delete icon of its `i`-th row carries `data-index = i`. -/
def renderDaysSorted (card : Card) (key : String) : List Timeslot :=
  let data := (getKey card._timeprogram key).getD { timeslots := [] }
  jsSort startGt data.timeslots

/-- The weekday keys `["mon", "tue", "wed", "thu", "fri", "sat", "sun"]` that
the card loops over. -/
def weekdays : List String :=
  ["mon", "tue", "wed", "thu", "fri", "sat", "sun"]

/-- The loop `for (let day of [...]) { this._new_slots[day] = []; ... }` of
`render`, `saveTimeprogram` and `cancelTimeprogram`. -/
def clearNewSlots (newSlots : List (String × List Timeslot)) : List (String × List Timeslot) :=
  weekdays.foldl (fun acc day => setKey acc day []) newSlots

/-- The keys that `for (let day in obj)` visits, in order. -/
def objectKeys {α : Type} (obj : List (String × α)) : List String :=
  obj.map Prod.fst

/-- The first `render` of a fresh card, where `this._timeprogram` is still
`null`: the draft is `structuredClone(entity.attributes.timeprogram || {})`,
the snapshot is a clone of the draft, and the seven new-slot lists are
emptied.  `hostTimeprogram` is `none` when the entity has no `timeprogram`
attribute.  The other fields keep the values of the constructor. -/
def renderInitialLoad (hostTimeprogram : Option (List (String × DayProgram))) : Card :=
  let timeprogram := hostTimeprogram.getD []
  { _timeprogram := timeprogram
    _original_timeprogram := timeprogram
    _dirty := false
    _new_slots := clearNewSlots [] }

/-- The object `cleanedTimeprogram` that `saveTimeprogram` builds and hands to
the service call. -/
def cleanedTimeprogram (card : Card) : List (String × DayProgram) :=
  (objectKeys card._timeprogram).foldl
    (fun cleaned day =>
      setKey cleaned day
        { timeslots :=
            ((getKey card._timeprogram day).getD { timeslots := [] }).timeslots.filter
              (fun slot => slot.isOn) })
    []

/-- `saveTimeprogram()`: the payload of the service call, and the card
afterwards. -/
def saveTimeprogram (card : Card) : List (String × DayProgram) × Card :=
  (cleanedTimeprogram card,
    { card with
      _original_timeprogram := card._timeprogram
      _new_slots := clearNewSlots card._new_slots
      _dirty := false })

/-- `cancelTimeprogram()`. -/
def cancelTimeprogram (card : Card) : Card :=
  { card with
    _timeprogram := card._original_timeprogram
    _new_slots := clearNewSlots card._new_slots
    _dirty := false }

/-- One editing action of the user: an add, with the answers of its three
dialogs, or a delete. -/
inductive EditOp where
  | add (day : String) (start stop : Option String) (onAnswer : Option Bool)
  | delete (day : String) (index : Nat)
deriving DecidableEq, Repr

/-- The card after one editing action. -/
def applyOp (card : Card) : EditOp → Card
  | .add day start stop onAnswer => addTimeslot card day start stop onAnswer
  | .delete day index => deleteTimeslot card day index

/-- The card after a sequence of editing actions, first action first. -/
def runOps (card : Card) (ops : List EditOp) : Card :=
  ops.foldl applyOp card

/-! ## Predicates used to state the properties -/

/-- Both times of the slot parse: `timeToMinutes` is a number, not `NaN`, on
`start` and on `stop`. -/
def timesParse (x : Timeslot) : Prop :=
  (timeToMinutes x.start).isSome = true ∧ (timeToMinutes x.stop).isSome = true

instance : DecidablePred timesParse := fun x => by
  unfold timesParse
  infer_instance

/-- The pair `(timeToMinutes x.start, endMinutes x.stop)` is at most the pair
`(timeToMinutes y.start, endMinutes y.stop)` in the lexicographic order. -/
def startStopLe (x y : Timeslot) : Bool :=
  match timeToMinutes x.start, endMinutes x.stop, timeToMinutes y.start, endMinutes y.stop with
  | some sx, some ex, some sy, some ey => decide (sx < sy ∨ (sx = sy ∧ ex ≤ ey))
  | _, _, _, _ => false

/-- The string of two decimal digits for `h`, a colon, and two decimal digits
for `m`, as in `"08:15"`; meant for `h` and `m` below 100. -/
def hhmm (h m : Nat) : String :=
  String.mk [Char.ofNat (48 + h / 10), Char.ofNat (48 + h % 10), ':',
    Char.ofNat (48 + m / 10), Char.ofNat (48 + m % 10)]

/-! ## Basic facts about the number model -/

theorem numLt_eq_true {x y : Option Nat} :
    numLt x y = true ↔ ∃ a b, x = some a ∧ y = some b ∧ a < b := by
  cases x <;> cases y <;> simp [numLt]

theorem timeToMinutes_midnight : timeToMinutes "00:00" = some 0 := by decide

theorem ne_midnight_of_pos {t : String} {n : Nat} (h : timeToMinutes t = some n)
    (hn : 0 < n) : t ≠ "00:00" := by
  intro ht
  rw [ht, timeToMinutes_midnight] at h
  simp at h
  omega

/-! ## The normaliser on concrete and on two-element inputs -/

/-- C1, idempotence, evaluated at a failing input.  The three intervals
08:00-12:00 on, 09:00-10:00 off and 11:00-13:00 on are well-formed; the first
run of the normaliser leaves the overlapping on entries 10:00-12:00 and
11:00-13:00 apart, the second run merges them, so the two runs differ. -/
theorem normalize_twice_changes_result :
    (∀ x ∈ [({ start := "08:00", stop := "12:00", isOn := true } : Timeslot),
        { start := "09:00", stop := "10:00", isOn := false },
        { start := "11:00", stop := "13:00", isOn := true }], wellFormed x = true) ∧
    cleanAndMergeTimeprogram
        [{ start := "08:00", stop := "12:00", isOn := true },
         { start := "09:00", stop := "10:00", isOn := false },
         { start := "11:00", stop := "13:00", isOn := true }]
      = [{ start := "08:00", stop := "09:00", isOn := true },
         { start := "09:00", stop := "10:00", isOn := false },
         { start := "10:00", stop := "12:00", isOn := true },
         { start := "11:00", stop := "13:00", isOn := true }] ∧
    cleanAndMergeTimeprogram
        (cleanAndMergeTimeprogram
          [{ start := "08:00", stop := "12:00", isOn := true },
           { start := "09:00", stop := "10:00", isOn := false },
           { start := "11:00", stop := "13:00", isOn := true }])
      = [{ start := "08:00", stop := "09:00", isOn := true },
         { start := "09:00", stop := "10:00", isOn := false },
         { start := "10:00", stop := "13:00", isOn := true }] := by
  decide

/-- C2, no overlap, evaluated at a failing input.  For the well-formed list
08:00-12:00 on, 09:30-10:00 off, 11:30-14:00 on the result ends with the two
on entries 10:00-12:00 and 11:30-14:00, the second being the next on entry
after the first, and the first stops at minute 720, after minute 690 where
the second starts. -/
theorem normalize_leaves_overlapping_on_entries :
    (∀ x ∈ [({ start := "08:00", stop := "12:00", isOn := true } : Timeslot),
        { start := "09:30", stop := "10:00", isOn := false },
        { start := "11:30", stop := "14:00", isOn := true }], wellFormed x = true) ∧
    cleanAndMergeTimeprogram
        [{ start := "08:00", stop := "12:00", isOn := true },
         { start := "09:30", stop := "10:00", isOn := false },
         { start := "11:30", stop := "14:00", isOn := true }]
      = [{ start := "08:00", stop := "09:30", isOn := true },
         { start := "09:30", stop := "10:00", isOn := false },
         { start := "10:00", stop := "12:00", isOn := true },
         { start := "11:30", stop := "14:00", isOn := true }] ∧
    endMinutes "12:00" = some 720 ∧ timeToMinutes "11:30" = some 690 := by
  decide

/-- C3, off as cutter.  An on interval from `a` to `d` and an off interval
from `b` to `c` with `timeToMinutes a < timeToMinutes b < timeToMinutes c <
timeToMinutes d` normalise, in either input order, to the on piece from `a` to
`b`, the off interval, and the on piece from `c` to `d`. -/
theorem off_as_cutter (a b c d : String)
    (hab : numLt (timeToMinutes a) (timeToMinutes b) = true)
    (hbc : numLt (timeToMinutes b) (timeToMinutes c) = true)
    (hcd : numLt (timeToMinutes c) (timeToMinutes d) = true) :
    cleanAndMergeTimeprogram
        [{ start := a, stop := d, isOn := true }, { start := b, stop := c, isOn := false }]
      = [{ start := a, stop := b, isOn := true }, { start := b, stop := c, isOn := false },
         { start := c, stop := d, isOn := true }] ∧
    cleanAndMergeTimeprogram
        [{ start := b, stop := c, isOn := false }, { start := a, stop := d, isOn := true }]
      = [{ start := a, stop := b, isOn := true }, { start := b, stop := c, isOn := false },
         { start := c, stop := d, isOn := true }] := by
  obtain ⟨ta, tb, ha, hb, h1⟩ := numLt_eq_true.mp hab
  obtain ⟨tb2, tc, hb2, hc, h2⟩ := numLt_eq_true.mp hbc
  obtain ⟨tc2, td, hc2, hd, h3⟩ := numLt_eq_true.mp hcd
  rw [hb] at hb2; cases hb2
  rw [hc] at hc2; cases hc2
  have nb : b ≠ "00:00" := ne_midnight_of_pos hb (by omega)
  have nc : c ≠ "00:00" := ne_midnight_of_pos hc (by omega)
  have nd : d ≠ "00:00" := ne_midnight_of_pos hd (by omega)
  have e1 : ¬ tb < ta := by omega
  have e2 : ¬ td ≤ tb := by omega
  have e3 : ¬ tc ≤ ta := by omega
  have e5 : ¬ tc ≤ tb := by omega
  have e6 : ¬ ta = tb := by omega
  have e7 : ¬ tb = ta := by omega
  have e8 : ¬ tb = tc := by omega
  have e9 : ¬ tc = tb := by omega
  have e10 : ¬ ta = tc := by omega
  have e11 : ¬ tc = ta := by omega
  have e12 : ¬ tc < tb := by omega
  have e13 : ¬ tc < ta := by omega
  have e14 : ta < tc := by omega
  constructor <;>
  simp [cleanAndMergeTimeprogram, jsSort, startGt, sweep, sweepStep, applyCut, cutOne,
    mergeOnlyOn, mergeLoop, finalGt, endMinutes, numLt, numLe, numEq, ha, hb, hc, hd, nb, nc, nd,
    h1, h2, h3, e1, e2, e3, e5, e6, e7, e8, e9, e10, e11, e12, e13, e14, List.orderedInsert]

/-- C3 at the instance of the specification: 08:00-12:00 on and 10:00-11:00
off give 08:00-10:00 on, 10:00-11:00 off, 11:00-12:00 on, in either order. -/
theorem off_as_cutter_witness :
    numLt (timeToMinutes "08:00") (timeToMinutes "10:00") = true ∧
    numLt (timeToMinutes "10:00") (timeToMinutes "11:00") = true ∧
    numLt (timeToMinutes "11:00") (timeToMinutes "12:00") = true ∧
    cleanAndMergeTimeprogram
        [{ start := "08:00", stop := "12:00", isOn := true },
         { start := "10:00", stop := "11:00", isOn := false }]
      = [{ start := "08:00", stop := "10:00", isOn := true },
         { start := "10:00", stop := "11:00", isOn := false },
         { start := "11:00", stop := "12:00", isOn := true }] ∧
    cleanAndMergeTimeprogram
        [{ start := "10:00", stop := "11:00", isOn := false },
         { start := "08:00", stop := "12:00", isOn := true }]
      = [{ start := "08:00", stop := "10:00", isOn := true },
         { start := "10:00", stop := "11:00", isOn := false },
         { start := "11:00", stop := "12:00", isOn := true }] :=
  ⟨by decide, by decide, by decide,
   off_as_cutter "08:00" "10:00" "11:00" "12:00" (by decide) (by decide) (by decide)⟩

/-- C4, merge on touch.  Two on intervals, from `a` to `b` and from `b` to
`c`, with `timeToMinutes a < timeToMinutes b < timeToMinutes c`, normalise in
either input order to the single on interval from `a` to `c`. -/
theorem merge_on_touch (a b c : String)
    (hab : numLt (timeToMinutes a) (timeToMinutes b) = true)
    (hbc : numLt (timeToMinutes b) (timeToMinutes c) = true) :
    cleanAndMergeTimeprogram
        [{ start := a, stop := b, isOn := true }, { start := b, stop := c, isOn := true }]
      = [{ start := a, stop := c, isOn := true }] ∧
    cleanAndMergeTimeprogram
        [{ start := b, stop := c, isOn := true }, { start := a, stop := b, isOn := true }]
      = [{ start := a, stop := c, isOn := true }] := by
  obtain ⟨ta, tb, ha, hb, h1⟩ := numLt_eq_true.mp hab
  obtain ⟨tb2, tc, hb2, hc, h2⟩ := numLt_eq_true.mp hbc
  rw [hb] at hb2; cases hb2
  have nb : b ≠ "00:00" := ne_midnight_of_pos hb (by omega)
  have nc : c ≠ "00:00" := ne_midnight_of_pos hc (by omega)
  have e1 : ¬ tb < ta := by omega
  have e2 : ¬ tb = ta := by omega
  have e3 : ¬ ta = tb := by omega
  constructor <;>
  simp [cleanAndMergeTimeprogram, jsSort, startGt, sweep, sweepStep, applyCut, cutOne,
    mergeOnlyOn, mergeLoop, finalGt, endMinutes, numLt, numLe, numEq, ha, hb, hc, nb, nc,
    h1, h2, e1, e2, e3, List.orderedInsert]

/-- C4 at the instance of the specification: 08:00-10:00 on and 10:00-12:00 on
give the single entry 08:00-12:00 on, in either order. -/
theorem merge_on_touch_witness :
    numLt (timeToMinutes "08:00") (timeToMinutes "10:00") = true ∧
    numLt (timeToMinutes "10:00") (timeToMinutes "12:00") = true ∧
    cleanAndMergeTimeprogram
        [{ start := "08:00", stop := "10:00", isOn := true },
         { start := "10:00", stop := "12:00", isOn := true }]
      = [{ start := "08:00", stop := "12:00", isOn := true }] ∧
    cleanAndMergeTimeprogram
        [{ start := "10:00", stop := "12:00", isOn := true },
         { start := "08:00", stop := "10:00", isOn := true }]
      = [{ start := "08:00", stop := "12:00", isOn := true }] :=
  ⟨by decide, by decide, merge_on_touch "08:00" "10:00" "12:00" (by decide) (by decide)⟩

/-- C5, full erase, evaluated at the instance of the specification.  The off
interval 07:00-13:00 contains the on interval 08:00-12:00, both are
well-formed, and the normaliser keeps both: the off interval starts earlier,
so the sweep meets it first, when there is nothing yet to cut. -/
theorem full_erase_keeps_on_interval :
    (∀ x ∈ [({ start := "08:00", stop := "12:00", isOn := true } : Timeslot),
        { start := "07:00", stop := "13:00", isOn := false }], wellFormed x = true) ∧
    cleanAndMergeTimeprogram
        [{ start := "08:00", stop := "12:00", isOn := true },
         { start := "07:00", stop := "13:00", isOn := false }]
      = [{ start := "07:00", stop := "13:00", isOn := false },
         { start := "08:00", stop := "12:00", isOn := true }] := by
  decide

/-- C6, midnight stop in the cut pass, evaluated at the instance of the claim.
The on interval 22:00-00:00 and the off interval 23:00-23:30 are well-formed,
and `applyCut` returns the on interval uncut: it reads the stop `"00:00"` as
minute 0, not 1440, so the interval seems to end before the cut starts. -/
theorem applyCut_ignores_midnight_stop :
    wellFormed { start := "22:00", stop := "00:00", isOn := true } = true ∧
    wellFormed { start := "23:00", stop := "23:30", isOn := false } = true ∧
    applyCut [{ start := "22:00", stop := "00:00", isOn := true }]
        { start := "23:00", stop := "23:30", isOn := false }
      = [{ start := "22:00", stop := "00:00", isOn := true }] ∧
    timeToMinutes "00:00" = some 0 ∧ endMinutes "00:00" = some 1440 := by
  decide

/-! ## The edit session -/

theorem getKey_setKey_self {α : Type} (obj : List (String × α)) (key : String) (value : α) :
    getKey (setKey obj key value) key = some value := by
  induction obj with
  | nil => simp [setKey, getKey]
  | cons p rest ih =>
    obtain ⟨k, v⟩ := p
    by_cases h : k = key
    · simp [setKey, getKey, h]
    · simp [setKey, getKey, h, ih]

theorem getKey_setKey_ne {α : Type} (obj : List (String × α)) (key other : String) (value : α)
    (h : other ≠ key) : getKey (setKey obj key value) other = getKey obj other := by
  induction obj with
  | nil => simp [setKey, getKey, Ne.symm h]
  | cons p rest ih =>
    obtain ⟨k, v⟩ := p
    by_cases hk : k = key
    · subst hk
      simp [setKey, getKey, Ne.symm h]
    · by_cases ho : k = other
      · subst ho
        simp [setKey, getKey, hk]
      · simp [setKey, getKey, hk, ho, ih]

theorem sameSlot_self (s : Timeslot) : sameSlot s s = true := by
  simp [sameSlot]

theorem trackNewSlots_timeprogram (card : Card) (day : String) (slot : Timeslot) :
    (trackNewSlots card day slot)._timeprogram = card._timeprogram := by
  simp only [trackNewSlots]
  split_ifs <;> rfl

theorem isTimeslotNew_trackNewSlots (card : Card) (day : String) (slot : Timeslot) :
    isTimeslotNew (trackNewSlots card day slot) day slot = true := by
  cases hg : getKey card._new_slots day with
  | none => simp [trackNewSlots, isTimeslotNew, hg, getKey_setKey_self, sameSlot]
  | some l =>
    by_cases ha : (l.any fun s => sameSlot s slot) = true
    · simp only [trackNewSlots, isTimeslotNew, hg, Option.getD_some, ha]
      simpa [hg] using ha
    · simp only [trackNewSlots, isTimeslotNew, hg, Option.getD_some, ha]
      simp [getKey_setKey_self, sameSlot]

theorem isTimeslotNew_congr (c₁ c₂ : Card) (h : c₁._new_slots = c₂._new_slots) (day : String)
    (slot : Timeslot) : isTimeslotNew c₁ day slot = isTimeslotNew c₂ day slot := by
  unfold isTimeslotNew
  rw [h]

theorem timeToMinutes_empty : timeToMinutes "" = none := by decide

theorem wellFormed_times {x : Timeslot} (h : wellFormed x = true) :
    ∃ s e, timeToMinutes x.start = some s ∧ timeToMinutes x.stop = some e := by
  unfold wellFormed at h
  cases hs : timeToMinutes x.start <;> cases he : timeToMinutes x.stop <;> simp [hs, he] at h
  exact ⟨_, _, rfl, rfl⟩

/-- C9, postcondition of `addTimeslot`.  When the three dialogs return the
start, the stop and the on/off value of a well-formed interval `x`, the draft
list of day `d` becomes the normalised old list with `x` appended (the old
list being empty when `d` had no entry), every other day reads as before,
`isTimeslotNew d x` holds, and the dirty flag is set. -/
theorem addTimeslot_postcondition (card : Card) (d : String) (x : Timeslot)
    (hx : wellFormed x = true) :
    getKey (addTimeslot card d (some x.start) (some x.stop) (some x.isOn))._timeprogram d
      = some (DayProgram.mk (cleanAndMergeTimeprogram
          (((getKey card._timeprogram d).getD { timeslots := [] }).timeslots ++ [x]))) ∧
    (∀ other, other ≠ d →
      getKey (addTimeslot card d (some x.start) (some x.stop) (some x.isOn))._timeprogram other
        = getKey card._timeprogram other) ∧
    isTimeslotNew (addTimeslot card d (some x.start) (some x.stop) (some x.isOn)) d x = true ∧
    (addTimeslot card d (some x.start) (some x.stop) (some x.isOn))._dirty = true := by
  obtain ⟨s, e, hs, he⟩ := wellFormed_times hx
  have h1 : x.start ≠ "" := by
    intro h; rw [h, timeToMinutes_empty] at hs; cases hs
  have h2 : x.stop ≠ "" := by
    intro h; rw [h, timeToMinutes_empty] at he; cases he
  have hx' : ({ start := x.start, stop := x.stop, isOn := x.isOn } : Timeslot) = x := rfl
  simp only [addTimeslot, h1, h2, if_false, hx', trackNewSlots_timeprogram]
  refine ⟨?_, ?_, ?_, ?_⟩
  · simp only [getKey_setKey_self]
    cases hg : getKey card._timeprogram d with
    | none => simp [getKey_setKey_self]
    | some v => simp [hg]
  · intro other ho
    rw [getKey_setKey_ne _ _ _ _ ho]
    cases hg : getKey card._timeprogram d with
    | none => simp [getKey_setKey_ne _ _ _ _ ho]
    | some v => simp
  · exact (isTimeslotNew_congr _ (trackNewSlots _ d x) rfl d x).trans
      (isTimeslotNew_trackNewSlots _ _ _)
  · trivial

/-- C9 at a concrete card: Monday holds 10:00-11:00 on, and 08:00-09:00 on is
added. -/
theorem addTimeslot_postcondition_witness :
    wellFormed { start := "08:00", stop := "09:00", isOn := true } = true ∧
    getKey (addTimeslot
        { _timeprogram := [("mon", { timeslots := [{ start := "10:00", stop := "11:00", isOn := true }] })]
          _original_timeprogram := []
          _dirty := false
          _new_slots := [] }
        "mon" (some "08:00") (some "09:00") (some true))._timeprogram "mon"
      = some (DayProgram.mk
          [{ start := "08:00", stop := "09:00", isOn := true },
           { start := "10:00", stop := "11:00", isOn := true }]) :=
  ⟨by decide,
   (addTimeslot_postcondition
      { _timeprogram := [("mon", { timeslots := [{ start := "10:00", stop := "11:00", isOn := true }] })]
        _original_timeprogram := []
        _dirty := false
        _new_slots := [] }
      "mon" { start := "08:00", stop := "09:00", isOn := true } (by decide)).1.trans (by decide)⟩

/-- C10, `deleteTimeslot` and the displayed row, evaluated at a failing input.
Monday holds 10:00-11:00 on followed by 08:00-09:00 on, as a host may deliver
it.  `renderDays` shows 08:00-09:00 in row 0, and `deleteTimeslot("mon", 0)`
removes the stored element 0, which is 10:00-11:00: the row that was clicked
stays in the list. -/
theorem deleteTimeslot_removes_other_row :
    renderDaysSorted
        { _timeprogram := [("mon", { timeslots :=
            [{ start := "10:00", stop := "11:00", isOn := true },
             { start := "08:00", stop := "09:00", isOn := true }] })]
          _original_timeprogram := []
          _dirty := false
          _new_slots := [] } "mon"
      = [{ start := "08:00", stop := "09:00", isOn := true },
         { start := "10:00", stop := "11:00", isOn := true }] ∧
    getKey (deleteTimeslot
        { _timeprogram := [("mon", { timeslots :=
            [{ start := "10:00", stop := "11:00", isOn := true },
             { start := "08:00", stop := "09:00", isOn := true }] })]
          _original_timeprogram := []
          _dirty := false
          _new_slots := [] } "mon" 0)._timeprogram "mon"
      = some (DayProgram.mk [{ start := "08:00", stop := "09:00", isOn := true }]) := by
  decide

/-! ## Sorting with a comparator that is an order on the listed elements -/

theorem sorted_orderedInsert_on {α : Type} (r : α → α → Prop) [DecidableRel r] (P : α → Prop)
    (htot : ∀ a b, P a → P b → r a b ∨ r b a)
    (htr : ∀ a b c, P a → P b → P c → r a b → r b c → r a c)
    (a : α) (ha : P a) :
    ∀ l : List α, (∀ x ∈ l, P x) → l.Sorted r → (l.orderedInsert r a).Sorted r := by
  intro l
  induction l with
  | nil => intro _ _; simp
  | cons b l ih =>
    intro hP hs
    have hb : P b := hP b (List.mem_cons_self _ _)
    have hl : ∀ x ∈ l, P x := fun x hx => hP x (List.mem_cons_of_mem _ hx)
    rw [List.sorted_cons] at hs
    by_cases hab : r a b
    · rw [List.orderedInsert_of_le _ _ hab]
      refine List.sorted_cons.mpr ⟨?_, List.sorted_cons.mpr hs⟩
      intro c hc
      rcases List.mem_cons.mp hc with rfl | hc
      · exact hab
      · exact htr a b c ha hb (hl c hc) hab (hs.1 c hc)
    · have hba : r b a := (htot a b ha hb).resolve_left hab
      simp only [List.orderedInsert, hab, if_false]
      refine List.sorted_cons.mpr ⟨?_, ih hl hs.2⟩
      intro c hc
      rcases (List.mem_orderedInsert r).mp hc with rfl | hc
      · exact hba
      · exact hs.1 c hc

theorem sorted_insertionSort_on {α : Type} (r : α → α → Prop) [DecidableRel r] (P : α → Prop)
    (htot : ∀ a b, P a → P b → r a b ∨ r b a)
    (htr : ∀ a b c, P a → P b → P c → r a b → r b c → r a c) :
    ∀ l : List α, (∀ x ∈ l, P x) → (l.insertionSort r).Sorted r := by
  intro l
  induction l with
  | nil => intro _; simp
  | cons a l ih =>
    intro hP
    have hl : ∀ x ∈ l, P x := fun x hx => hP x (List.mem_cons_of_mem _ hx)
    simp only [List.insertionSort]
    apply sorted_orderedInsert_on r P htot htr a (hP a (List.mem_cons_self _ _))
    · intro x hx
      exact hl x ((List.mem_insertionSort r).mp hx)
    · exact ih hl

/-! ## Every time in the result is a time of the input -/

theorem timesParse_of_wellFormed {x : Timeslot} (h : wellFormed x = true) : timesParse x := by
  obtain ⟨s, e, hs, he⟩ := wellFormed_times h
  simp [timesParse, hs, he]

theorem timesParse_cutOne {cutSlot slot : Timeslot} (hc : timesParse cutSlot)
    (hs : timesParse slot) : ∀ x ∈ cutOne cutSlot slot, timesParse x := by
  intro x hx
  unfold cutOne at hx
  simp only [] at hx
  split_ifs at hx <;> simp at hx
  all_goals first
    | (subst hx; first | exact hs | exact ⟨hs.1, hc.1⟩ | exact ⟨hc.2, hs.2⟩)
    | (rcases hx with rfl | rfl <;> first | exact ⟨hs.1, hc.1⟩ | exact ⟨hc.2, hs.2⟩)

theorem timesParse_applyCut {cutSlot : Timeslot} (hc : timesParse cutSlot) :
    ∀ slots : List Timeslot, (∀ x ∈ slots, timesParse x) →
      ∀ x ∈ applyCut slots cutSlot, timesParse x := by
  intro slots
  induction slots with
  | nil => intro _ x hx; simp [applyCut] at hx
  | cons slot slots ih =>
    intro h x hx
    simp only [applyCut, List.mem_append] at hx
    rcases hx with hx | hx
    · exact timesParse_cutOne hc (h slot (List.mem_cons_self _ _)) x hx
    · exact ih (fun y hy => h y (List.mem_cons_of_mem _ hy)) x hx

theorem timesParse_sweep : ∀ (sorted result : List Timeslot),
    (∀ x ∈ sorted, timesParse x) → (∀ x ∈ result, timesParse x) →
      ∀ x ∈ sweep sorted result, timesParse x := by
  intro sorted
  induction sorted with
  | nil => intro result _ hr x hx; exact hr x hx
  | cons slot sorted ih =>
    intro result hs hr
    have hslot := hs slot (List.mem_cons_self _ _)
    simp only [sweep, List.foldl_cons]
    apply ih (sweepStep result slot) (fun y hy => hs y (List.mem_cons_of_mem _ hy))
    intro y hy
    unfold sweepStep at hy
    split_ifs at hy
    · rcases List.mem_append.mp hy with hy | hy
      · exact hr y hy
      · simp at hy; subst hy; exact hslot
    · rcases List.mem_append.mp hy with hy | hy
      · exact timesParse_applyCut hslot result hr y hy
      · simp at hy; subst hy; exact hslot

theorem timesParse_mergeLoop : ∀ (slots : List Timeslot) (current : Option Timeslot),
    (∀ x ∈ slots, timesParse x) → (∀ c, current = some c → timesParse c) →
      ∀ x ∈ mergeLoop slots current, timesParse x := by
  intro slots
  induction slots with
  | nil =>
    intro current _ hc x hx
    cases current with
    | none => simp [mergeLoop] at hx
    | some c => simp [mergeLoop] at hx; rw [hx]; exact hc c rfl
  | cons slot rest ih =>
    intro current hs hc x hx
    have hslot := hs slot (List.mem_cons_self _ _)
    have hrest : ∀ y ∈ rest, timesParse y := fun y hy => hs y (List.mem_cons_of_mem _ hy)
    cases current with
    | none =>
      simp only [mergeLoop] at hx
      split_ifs at hx
      · rcases List.mem_cons.mp hx with rfl | hx
        · exact hslot
        · exact ih none hrest (by simp) x hx
      · exact ih (some slot) hrest (by intro c hc; cases hc; exact hslot) x hx
    | some c =>
      have hcur := hc c rfl
      simp only [mergeLoop] at hx
      split_ifs at hx
      · rcases List.mem_cons.mp hx with rfl | hx
        · exact hcur
        · rcases List.mem_cons.mp hx with rfl | hx
          · exact hslot
          · exact ih none hrest (by simp) x hx
      · exact ih _ hrest (by intro c' hc'; cases hc'; exact ⟨hcur.1, hslot.2⟩) x hx
      · exact ih _ hrest (by intro c' hc'; cases hc'; exact hcur) x hx
      · rcases List.mem_cons.mp hx with rfl | hx
        · exact hcur
        · exact ih _ hrest (by intro c' hc'; cases hc'; exact hslot) x hx

theorem cleanAndMergeTimeprogram_eq (timeslots : List Timeslot) :
    cleanAndMergeTimeprogram timeslots
      = jsSort finalGt (mergeOnlyOn (sweep (jsSort startGt timeslots) [])) := by
  cases timeslots with
  | nil => simp [cleanAndMergeTimeprogram, jsSort, sweep, mergeOnlyOn, mergeLoop]
  | cons a l => rfl

theorem timesParse_merged (L : List Timeslot) (h : ∀ x ∈ L, wellFormed x = true) :
    ∀ x ∈ mergeOnlyOn (sweep (jsSort startGt L) []), timesParse x := by
  apply timesParse_mergeLoop _ none _ (by simp)
  apply timesParse_sweep _ [] _ (by simp)
  intro x hx
  exact timesParse_of_wellFormed (h x ((List.mem_insertionSort _).mp hx))


theorem endMinutes_parse {x : Timeslot} (h : timesParse x) : ∃ e, endMinutes x.stop = some e := by
  unfold endMinutes
  split_ifs
  · exact ⟨1440, rfl⟩
  · exact Option.isSome_iff_exists.mp h.2

theorem finalGt_false_iff {a b : Timeslot} {sa ea sb eb : Nat}
    (hsa : timeToMinutes a.start = some sa) (hea : endMinutes a.stop = some ea)
    (hsb : timeToMinutes b.start = some sb) (heb : endMinutes b.stop = some eb) :
    finalGt a b = false ↔ (sa < sb ∨ (sa = sb ∧ ea ≤ eb)) := by
  unfold finalGt
  rw [hsa, hea, hsb, heb]
  by_cases h : sa = sb
  · simp [numEq, numLt, h]
  · simp [numEq, numLt, h]
    omega

theorem startStopLe_of_finalGt_false {a b : Timeslot} (ha : timesParse a) (hb : timesParse b)
    (h : finalGt a b = false) : startStopLe a b = true := by
  obtain ⟨sa, hsa⟩ := Option.isSome_iff_exists.mp ha.1
  obtain ⟨ea, hea⟩ := endMinutes_parse ha
  obtain ⟨sb, hsb⟩ := Option.isSome_iff_exists.mp hb.1
  obtain ⟨eb, heb⟩ := endMinutes_parse hb
  have := (finalGt_false_iff hsa hea hsb heb).mp h
  simp [startStopLe, hsa, hea, hsb, heb, this]

theorem finalGt_total (a b : Timeslot) (ha : timesParse a) (hb : timesParse b) :
    finalGt a b = false ∨ finalGt b a = false := by
  obtain ⟨sa, hsa⟩ := Option.isSome_iff_exists.mp ha.1
  obtain ⟨ea, hea⟩ := endMinutes_parse ha
  obtain ⟨sb, hsb⟩ := Option.isSome_iff_exists.mp hb.1
  obtain ⟨eb, heb⟩ := endMinutes_parse hb
  rw [finalGt_false_iff hsa hea hsb heb, finalGt_false_iff hsb heb hsa hea]
  omega

theorem finalGt_trans (a b c : Timeslot) (ha : timesParse a) (hb : timesParse b)
    (hc : timesParse c) (hab : finalGt a b = false) (hbc : finalGt b c = false) :
    finalGt a c = false := by
  obtain ⟨sa, hsa⟩ := Option.isSome_iff_exists.mp ha.1
  obtain ⟨ea, hea⟩ := endMinutes_parse ha
  obtain ⟨sb, hsb⟩ := Option.isSome_iff_exists.mp hb.1
  obtain ⟨eb, heb⟩ := endMinutes_parse hb
  obtain ⟨sc, hsc⟩ := Option.isSome_iff_exists.mp hc.1
  obtain ⟨ec, hec⟩ := endMinutes_parse hc
  rw [finalGt_false_iff hsa hea hsb heb] at hab
  rw [finalGt_false_iff hsb heb hsc hec] at hbc
  rw [finalGt_false_iff hsa hea hsc hec]
  omega

theorem startGt_false_iff {a b : Timeslot} {sa sb : Nat}
    (hsa : timeToMinutes a.start = some sa) (hsb : timeToMinutes b.start = some sb) :
    startGt a b = false ↔ sa ≤ sb := by
  unfold startGt
  rw [hsa, hsb]
  simp [numLt]

theorem startGt_total (a b : Timeslot) (ha : timesParse a) (hb : timesParse b) :
    startGt a b = false ∨ startGt b a = false := by
  obtain ⟨sa, hsa⟩ := Option.isSome_iff_exists.mp ha.1
  obtain ⟨sb, hsb⟩ := Option.isSome_iff_exists.mp hb.1
  rw [startGt_false_iff hsa hsb, startGt_false_iff hsb hsa]
  omega

theorem startGt_trans (a b c : Timeslot) (ha : timesParse a) (hb : timesParse b)
    (hc : timesParse c) (hab : startGt a b = false) (hbc : startGt b c = false) :
    startGt a c = false := by
  obtain ⟨sa, hsa⟩ := Option.isSome_iff_exists.mp ha.1
  obtain ⟨sb, hsb⟩ := Option.isSome_iff_exists.mp hb.1
  obtain ⟨sc, hsc⟩ := Option.isSome_iff_exists.mp hc.1
  rw [startGt_false_iff hsa hsb] at hab
  rw [startGt_false_iff hsb hsc] at hbc
  rw [startGt_false_iff hsa hsc]
  omega

/-- C8, canonical order of the result.  For a list of well-formed intervals,
every two consecutive entries `x`, `y` of the normalised list satisfy
`(timeToMinutes x.start, endMinutes x.stop) ≤ (timeToMinutes y.start,
endMinutes y.stop)` in the lexicographic order, `"00:00"` counting as 1440 in
a stop. -/
theorem normalize_sorted (L : List Timeslot) (h : ∀ x ∈ L, wellFormed x = true) :
    List.Chain' (fun x y => startStopLe x y = true) (cleanAndMergeTimeprogram L) := by
  rw [cleanAndMergeTimeprogram_eq]
  have hP := timesParse_merged L h
  have hs : List.Sorted (fun a b => finalGt a b = false)
      (jsSort finalGt (mergeOnlyOn (sweep (jsSort startGt L) []))) :=
    sorted_insertionSort_on _ timesParse finalGt_total finalGt_trans _ hP
  have hmem : ∀ x ∈ jsSort finalGt (mergeOnlyOn (sweep (jsSort startGt L) [])), timesParse x :=
    fun x hx => hP x ((List.mem_insertionSort _).mp hx)
  apply List.Pairwise.chain'
  exact List.Pairwise.imp_of_mem
    (fun {a b} ha hb hab => startStopLe_of_finalGt_false (hmem a ha) (hmem b hb) hab) hs

/-- The first sort fixes the result when no two different entries share a
start minute: for such a list of well-formed intervals every permutation
normalises to the same result. -/
theorem normalize_perm (L L' : List Timeslot) (h : ∀ x ∈ L, wellFormed x = true)
    (huniq : ∀ x ∈ L, ∀ y ∈ L, timeToMinutes x.start = timeToMinutes y.start → x = y)
    (hp : L'.Perm L) :
    cleanAndMergeTimeprogram L' = cleanAndMergeTimeprogram L := by
  have hP : ∀ x ∈ L, timesParse x := fun x hx => timesParse_of_wellFormed (h x hx)
  have hP' : ∀ x ∈ L', timesParse x := fun x hx => hP x (hp.mem_iff.mp hx)
  have hsorted : jsSort startGt L' = jsSort startGt L := by
    apply List.Perm.eq_of_sorted _
      (sorted_insertionSort_on _ timesParse startGt_total startGt_trans _ hP')
      (sorted_insertionSort_on _ timesParse startGt_total startGt_trans _ hP)
      (((List.perm_insertionSort _ L').trans hp).trans (List.perm_insertionSort _ L).symm)
    intro a b ha hb hab hba
    have haL : a ∈ L := hp.mem_iff.mp ((List.mem_insertionSort _).mp ha)
    have hbL : b ∈ L := (List.mem_insertionSort _).mp hb
    obtain ⟨sa, hsa⟩ := Option.isSome_iff_exists.mp (hP a haL).1
    obtain ⟨sb, hsb⟩ := Option.isSome_iff_exists.mp (hP b hbL).1
    rw [startGt_false_iff hsa hsb] at hab
    rw [startGt_false_iff hsb hsa] at hba
    apply huniq a haL b hbL
    rw [hsa, hsb]
    congr 1
    omega
  rw [cleanAndMergeTimeprogram_eq, cleanAndMergeTimeprogram_eq, hsorted]

/-- C8 at the list 11:00-13:00 on, 08:00-12:00 on, 09:00-10:00 off. -/
theorem normalize_sorted_witness :
    (∀ x ∈ [({ start := "11:00", stop := "13:00", isOn := true } : Timeslot),
        { start := "08:00", stop := "12:00", isOn := true },
        { start := "09:00", stop := "10:00", isOn := false }], wellFormed x = true) ∧
    List.Chain' (fun x y => startStopLe x y = true)
      (cleanAndMergeTimeprogram
        [{ start := "11:00", stop := "13:00", isOn := true },
         { start := "08:00", stop := "12:00", isOn := true },
         { start := "09:00", stop := "10:00", isOn := false }]) :=
  ⟨by decide, normalize_sorted _ (by decide)⟩

/-- C7, input order, evaluated at a failing input.  The on interval
08:00-12:00 and the off interval 08:00-12:00 are well-formed and the two lists
are permutations of each other.  With the on interval first the off interval
erases it; with the off interval first the sweep meets the off interval when
there is nothing yet to cut, and both entries stay. -/
theorem normalize_depends_on_input_order :
    (∀ x ∈ [({ start := "08:00", stop := "12:00", isOn := true } : Timeslot),
        { start := "08:00", stop := "12:00", isOn := false }], wellFormed x = true) ∧
    List.Perm
      [({ start := "08:00", stop := "12:00", isOn := false } : Timeslot),
        { start := "08:00", stop := "12:00", isOn := true }]
      [{ start := "08:00", stop := "12:00", isOn := true },
        { start := "08:00", stop := "12:00", isOn := false }] ∧
    cleanAndMergeTimeprogram
        [{ start := "08:00", stop := "12:00", isOn := true },
         { start := "08:00", stop := "12:00", isOn := false }]
      = [{ start := "08:00", stop := "12:00", isOn := false }] ∧
    cleanAndMergeTimeprogram
        [{ start := "08:00", stop := "12:00", isOn := false },
         { start := "08:00", stop := "12:00", isOn := true }]
      = [{ start := "08:00", stop := "12:00", isOn := false },
         { start := "08:00", stop := "12:00", isOn := true }] := by
  decide

/-- The order-independence fact above at the list 08:00-12:00 on, 10:00-11:00
off and its swap. -/
theorem normalize_perm_witness :
    (∀ x ∈ [({ start := "08:00", stop := "12:00", isOn := true } : Timeslot),
        { start := "10:00", stop := "11:00", isOn := false }], wellFormed x = true) ∧
    (∀ x ∈ [({ start := "08:00", stop := "12:00", isOn := true } : Timeslot),
        { start := "10:00", stop := "11:00", isOn := false }],
      ∀ y ∈ [({ start := "08:00", stop := "12:00", isOn := true } : Timeslot),
        { start := "10:00", stop := "11:00", isOn := false }],
      timeToMinutes x.start = timeToMinutes y.start → x = y) ∧
    List.Perm
      [({ start := "10:00", stop := "11:00", isOn := false } : Timeslot),
        { start := "08:00", stop := "12:00", isOn := true }]
      [{ start := "08:00", stop := "12:00", isOn := true },
        { start := "10:00", stop := "11:00", isOn := false }] ∧
    cleanAndMergeTimeprogram
        [{ start := "10:00", stop := "11:00", isOn := false },
         { start := "08:00", stop := "12:00", isOn := true }]
      = cleanAndMergeTimeprogram
        [{ start := "08:00", stop := "12:00", isOn := true },
         { start := "10:00", stop := "11:00", isOn := false }] :=
  ⟨by decide, by decide, by decide, normalize_perm _ _ (by decide) (by decide) (by decide)⟩

/-! ## Save, cancel and load -/

theorem getKey_foldl_setKey {α : Type} (f : String → α) (day : String) :
    ∀ (keys : List String) (acc : List (String × α)),
      getKey (keys.foldl (fun cleaned k => setKey cleaned k (f k)) acc) day
        = if day ∈ keys then some (f day) else getKey acc day := by
  intro keys
  induction keys with
  | nil => intro acc; simp
  | cons k ks ih =>
    intro acc
    rw [List.foldl_cons, ih]
    by_cases hks : day ∈ ks
    · simp [hks]
    · by_cases hk : day = k
      · subst hk
        simp [hks, getKey_setKey_self]
      · simp [hks, hk, getKey_setKey_ne _ _ _ _ hk]

theorem getKey_of_mem_objectKeys {α : Type} (day : String) :
    ∀ obj : List (String × α), day ∈ objectKeys obj → ∃ v, getKey obj day = some v := by
  intro obj
  induction obj with
  | nil => intro h; simp [objectKeys] at h
  | cons p rest ih =>
    obtain ⟨k, v⟩ := p
    intro h
    by_cases hk : k = day
    · exact ⟨v, by simp [getKey, hk]⟩
    · have : day ∈ objectKeys rest := by
        simp only [objectKeys, List.map_cons, List.mem_cons] at h
        rcases h with h | h
        · exact absurd h.symm hk
        · exact h
      obtain ⟨w, hw⟩ := ih this
      exact ⟨w, by simp [getKey, hk, hw]⟩

theorem getKey_of_not_mem_objectKeys {α : Type} (day : String) :
    ∀ obj : List (String × α), day ∉ objectKeys obj → getKey obj day = none := by
  intro obj
  induction obj with
  | nil => intro _; rfl
  | cons p rest ih =>
    obtain ⟨k, v⟩ := p
    intro h
    simp only [objectKeys, List.map_cons, List.mem_cons, not_or] at h
    have hk : ¬ k = day := fun e => h.1 e.symm
    simp only [getKey, hk, if_false]
    exact ih h.2

theorem getKey_cleanedTimeprogram (card : Card) (day : String) :
    getKey (cleanedTimeprogram card) day
      = (getKey card._timeprogram day).map
          (fun entry => DayProgram.mk (entry.timeslots.filter (fun slot => slot.isOn))) := by
  unfold cleanedTimeprogram
  rw [getKey_foldl_setKey
    (fun day => DayProgram.mk
      (((getKey card._timeprogram day).getD { timeslots := [] }).timeslots.filter
        (fun slot => slot.isOn)))]
  by_cases h : day ∈ objectKeys card._timeprogram
  · obtain ⟨v, hv⟩ := getKey_of_mem_objectKeys day _ h
    simp [h, hv]
  · simp [h, getKey_of_not_mem_objectKeys day _ h, getKey]

/-- C11, commit strips off entries.  For every card and every day key, the
payload of `saveTimeprogram` has an entry for the day exactly when the draft
has one, and that entry lists the draft entries of the day with `on` true, in
their order; so every interval of the payload has `on` true. -/
theorem saveTimeprogram_payload (card : Card) (day : String) :
    getKey (saveTimeprogram card).1 day
      = (getKey card._timeprogram day).map
          (fun entry => DayProgram.mk (entry.timeslots.filter (fun slot => slot.isOn))) ∧
    (((getKey (saveTimeprogram card).1 day).getD { timeslots := [] }).timeslots.all
      (fun slot => slot.isOn)) = true := by
  have h := getKey_cleanedTimeprogram card day
  refine ⟨h, ?_⟩
  show (((getKey (cleanedTimeprogram card) day).getD { timeslots := [] }).timeslots.all
      (fun slot => slot.isOn)) = true
  rw [h]
  cases getKey card._timeprogram day with
  | none => simp
  | some entry => simp

theorem trackNewSlots_original (card : Card) (day : String) (slot : Timeslot) :
    (trackNewSlots card day slot)._original_timeprogram = card._original_timeprogram := by
  simp only [trackNewSlots]
  split_ifs <;> rfl

theorem addTimeslot_original (card : Card) (day : String) (start stop : Option String)
    (onAnswer : Option Bool) :
    (addTimeslot card day start stop onAnswer)._original_timeprogram
      = card._original_timeprogram := by
  unfold addTimeslot
  cases start with
  | none => rfl
  | some start =>
    cases stop with
    | none => simp only []; split_ifs <;> rfl
    | some stop =>
      cases onAnswer with
      | none => simp only []; split_ifs <;> rfl
      | some isOn =>
        simp only []
        split_ifs
        · rfl
        · rfl
        · simp only [trackNewSlots_original]

theorem deleteTimeslot_original (card : Card) (day : String) (index : Nat) :
    (deleteTimeslot card day index)._original_timeprogram = card._original_timeprogram := by
  unfold deleteTimeslot
  cases getKey card._timeprogram day <;> rfl

theorem runOps_original (ops : List EditOp) :
    ∀ card : Card, (runOps card ops)._original_timeprogram = card._original_timeprogram := by
  induction ops with
  | nil => intro card; rfl
  | cons op ops ih =>
    intro card
    simp only [runOps, List.foldl_cons]
    have := ih (applyOp card op)
    simp only [runOps] at this
    rw [this]
    cases op with
    | add day start stop onAnswer => exact addTimeslot_original _ _ _ _ _
    | delete day index => exact deleteTimeslot_original _ _ _

/-- C12, revert restores exactly.  No sequence of add and delete actions changes
the snapshot, so `cancelTimeprogram` after the sequence puts the snapshot back
into the draft; after a save the snapshot is the draft that was saved, and
after the first load it is the loaded draft. -/
theorem cancel_restores_snapshot (card : Card) (ops : List EditOp)
    (host : Option (List (String × DayProgram))) :
    (runOps card ops)._original_timeprogram = card._original_timeprogram ∧
    (cancelTimeprogram (runOps card ops))._timeprogram = card._original_timeprogram ∧
    (cancelTimeprogram (runOps (saveTimeprogram card).2 ops))._timeprogram
      = card._timeprogram ∧
    (cancelTimeprogram (runOps (renderInitialLoad host) ops))._timeprogram
      = (renderInitialLoad host)._timeprogram := by
  refine ⟨runOps_original ops card, ?_, ?_, ?_⟩
  · show (runOps card ops)._original_timeprogram = _
    exact runOps_original ops card
  · show (runOps (saveTimeprogram card).2 ops)._original_timeprogram = _
    rw [runOps_original]
    rfl
  · show (runOps (renderInitialLoad host) ops)._original_timeprogram = _
    rw [runOps_original]
    rfl


theorem getKey_saveTimeprogram_isSome (card : Card) (day : String) :
    (getKey (saveTimeprogram card).1 day).isSome = (getKey card._timeprogram day).isSome := by
  show (getKey (cleanedTimeprogram card) day).isSome = _
  rw [getKey_cleanedTimeprogram]
  cases getKey card._timeprogram day <;> rfl

/-- C13, amended.  The draft made by the first load has, day by day, exactly
the entries of the time program of the host (none at all when the host has
none); a day without an entry is shown by `renderDays` as an empty list; and
the payload of `saveTimeprogram` has an entry for a day exactly when the draft
has one. -/
theorem load_keeps_host_days (host : Option (List (String × DayProgram))) (card : Card)
    (day : String) :
    getKey (renderInitialLoad host)._timeprogram day = getKey (host.getD []) day ∧
    (getKey card._timeprogram day = none → renderDaysSorted card day = []) ∧
    (getKey (saveTimeprogram card).1 day).isSome = (getKey card._timeprogram day).isSome := by
  refine ⟨rfl, ?_, getKey_saveTimeprogram_isSome card day⟩
  intro h
  simp [renderDaysSorted, h, jsSort]

/-- C13, amended, at an absent host time program and the day `tue`. -/
theorem load_keeps_host_days_witness :
    getKey (renderInitialLoad none)._timeprogram "tue" = none ∧
    renderDaysSorted (renderInitialLoad none) "tue" = [] :=
  ⟨by decide,
   (load_keeps_host_days none (renderInitialLoad none) "tue").2.1 (by decide)⟩

/-- C13 as stated fails.  With no time program on the host the loaded draft and
the payload of a save have no entry for `mon`; with a host program that has
only `mon`, they have none for `tue`. -/
theorem load_misses_weekdays :
    getKey (renderInitialLoad none)._timeprogram "mon" = none ∧
    getKey (saveTimeprogram (renderInitialLoad none)).1 "mon" = none ∧
    getKey (renderInitialLoad (some [("mon", { timeslots :=
        [{ start := "08:00", stop := "12:00", isOn := true }] })]))._timeprogram "tue" = none ∧
    getKey (saveTimeprogram (renderInitialLoad (some [("mon", { timeslots :=
        [{ start := "08:00", stop := "12:00", isOn := true }] })]))).1 "tue" = none := by
  decide

theorem digitVal_ofNat (k : Nat) (hk : k < 10) : digitVal (Char.ofNat (48 + k)) = some k := by
  interval_cases k <;> decide

theorem ofNat_ne_colon (k : Nat) (hk : k < 10) : Char.ofNat (48 + k) ≠ ':' := by
  interval_cases k <;> decide

theorem splitColon_no_colon :
    ∀ (l cur : List Char), ':' ∉ l → splitColon l cur = [cur.reverse ++ l] := by
  intro l
  induction l with
  | nil => intro cur _; simp [splitColon]
  | cons c cs ih =>
    intro cur h
    have hc : ¬ c = ':' := fun e => h (by simp [e])
    have hcs : ':' ∉ cs := fun e => h (List.mem_cons_of_mem _ e)
    simp only [splitColon, hc, if_false]
    rw [ih (c :: cur) hcs]
    simp

theorem timeToMinutes_no_colon (t : String) (ht : ':' ∉ t.toList) :
    timeToMinutes t = none := by
  unfold timeToMinutes
  rw [splitColon_no_colon t.toList [] ht]

/-- C14, amended.  On two decimal digits, a colon and two decimal digits,
`timeToMinutes` returns `h * 60 + m` for the numbers `h` and `m` the digits
spell, whatever their size; on every string `t` without a colon, `"abc"` and
the empty string among them, the result is `NaN`. -/
theorem timeToMinutes_hhmm (h m : Nat) (hh : h < 100) (hm : m < 100) (t : String)
    (ht : ':' ∉ t.toList) :
    timeToMinutes (hhmm h m) = some (h * 60 + m) ∧
    timeToMinutes t = none ∧
    timeToMinutes "abc" = none ∧ timeToMinutes "" = none := by
  refine ⟨?_, timeToMinutes_no_colon t ht, by decide, by decide⟩
  have h1 : h / 10 < 10 := by omega
  have h2 : h % 10 < 10 := by omega
  have h3 : m / 10 < 10 := by omega
  have h4 : m % 10 < 10 := by omega
  simp only [timeToMinutes, hhmm, String.toList, splitColon, ofNat_ne_colon _ h1,
    ofNat_ne_colon _ h2, ofNat_ne_colon _ h3, ofNat_ne_colon _ h4, if_false, if_true,
    List.reverse_cons, List.reverse_nil, List.nil_append, List.cons_append, jsNumber,
    digitsValue, digitVal_ofNat _ h1, digitVal_ofNat _ h2, digitVal_ofNat _ h3,
    digitVal_ofNat _ h4]
  congr 1
  omega

/-- C14, amended, at `"08:15"` and at the colon-free string `"0815"`. -/
theorem timeToMinutes_hhmm_witness :
    8 < 100 ∧ 15 < 100 ∧ ':' ∉ "0815".toList ∧ hhmm 8 15 = "08:15" ∧
    timeToMinutes (hhmm 8 15) = some (8 * 60 + 15) ∧ timeToMinutes "0815" = none :=
  ⟨by decide, by decide, by decide, by decide,
   (timeToMinutes_hhmm 8 15 (by decide) (by decide) "0815" (by decide)).1,
   (timeToMinutes_hhmm 8 15 (by decide) (by decide) "0815" (by decide)).2.1⟩

/-- C14 as stated fails.  `timeToMinutes` returns the numbers 1500 for `"25:00"`
and 795 for `"12:75"`, which are outside the `HH:MM` pattern. -/
theorem timeToMinutes_accepts_out_of_range :
    timeToMinutes "25:00" = some 1500 ∧ timeToMinutes "12:75" = some 795 := by
  decide

/-- C15, the merge pass and the later stop, evaluated at the instance of the
claim.  The on intervals 20:00-22:00 and 21:00-00:00 are well-formed and
overlap, and the stop `"00:00"` has the larger `endMinutes`; the normaliser
returns 20:00-22:00, because it reads the stop of the next slot as minute 0. -/
theorem merge_drops_midnight_stop :
    wellFormed { start := "20:00", stop := "22:00", isOn := true } = true ∧
    wellFormed { start := "21:00", stop := "00:00", isOn := true } = true ∧
    numLe (timeToMinutes "20:00") (timeToMinutes "21:00") = true ∧
    numLe (timeToMinutes "21:00") (endMinutes "22:00") = true ∧
    numLt (endMinutes "22:00") (endMinutes "00:00") = true ∧
    cleanAndMergeTimeprogram
        [{ start := "20:00", stop := "22:00", isOn := true },
         { start := "21:00", stop := "00:00", isOn := true }]
      = [{ start := "20:00", stop := "22:00", isOn := true }] := by
  decide

end RemkoCard
